import Mathlib

/-!
Verification of the pgp-encryption tool (src/main.rs) against its
natural-language specification.

The program is embedded shallowly.  Filesystem paths are lists of
components.  External collaborators (the filesystem, the walkdir
directory enumerator and the sequoia-openpgp crypto library) are
modelled as oracles inside a `World` record: each fallible operation of
the source is a field of the world that either succeeds or returns an
error string, exactly mirroring which operations of `run_with_args` can
fail and in which order they are invoked.  The run returns the trace of
filesystem effects it performed together with the `Result<(), (i32,
String)>` of the Rust function.
-/

/-- A filesystem path, as a list of path components (no `.`/`..`
normalisation; walkdir yields entry paths that extend the root path it
was given). -/
abbrev FPath := List String

/-- File contents, as a list of bytes. -/
abbrev Bytes := List Nat

/-- Rendering of a path for error messages (Rust `FPath::display`). -/
def display (p : FPath) : String := String.intercalate "/" p

/-- Splits a reversed component name at the first `.` found: returns
(characters before the dot in the original order reversed = the reversed
extension, the remaining reversed stem), or `none` when no dot occurs. -/
def revSplitDot : List Char → Option (List Char × List Char)
  | [] => none
  | c :: rest =>
    if c = '.' then some ([], rest)
    else
      match revSplitDot rest with
      | some (ext, stem) => some (c :: ext, stem)
      | none => none

/-- Rust `FPath::extension` on a single file name: the portion after the
last `.`, and `none` when there is no dot or the only dot is leading
(`.foo` has no extension). -/
def fileExtension (name : String) : Option String :=
  match revSplitDot name.data.reverse with
  | some (extRev, stemRev) =>
    if stemRev.isEmpty then none else some (String.mk extRev.reverse)
  | none => none

/-- Rust `FPath::file_stem` on a single file name: the portion before the
last `.` (the whole name when there is no extension). -/
def fileStem (name : String) : String :=
  match revSplitDot name.data.reverse with
  | some (_, stemRev) =>
    if stemRev.isEmpty then name else String.mk stemRev.reverse
  | none => name

/-- Rust `PathBuf::with_extension` at the file-name level:
`file_stem ++ "." ++ ext`. -/
def withExtensionName (name ext : String) : String :=
  fileStem name ++ "." ++ ext

/-- Rust `PathBuf::with_extension` on a path: replaces the extension of
the last component; the empty path is unchanged (`set_extension` is a
no-op when there is no file name). -/
def withExtension : FPath → String → FPath
  | [], _ => []
  | [name], ext => [withExtensionName name ext]
  | c :: c2 :: rest, ext => c :: withExtension (c2 :: rest) ext

/-- Extension of the final component of a path (Rust
`FPath::extension`). -/
def pathExtension : FPath → Option String
  | [] => none
  | [name] => fileExtension name
  | _ :: c2 :: rest => pathExtension (c2 :: rest)

/-- The skip test of src/main.rs line 113:
`file_path.extension().is_some_and(|ext| ext == "pgp")` (a case-sensitive
string comparison). -/
def alreadyEncrypted (p : FPath) : Bool :=
  match pathExtension p with
  | some ext => ext = "pgp"
  | none => false

/-- Rust `FPath::strip_prefix`: the remainder of `p` after the prefix
`root`, or `none` when `root` is not a component-wise prefix. -/
def stripRoot : FPath → FPath → Option FPath
  | [], p => some p
  | _ :: _, [] => none
  | a :: as, b :: bs => if a = b then stripRoot as bs else none

/-- Rust `FPath::parent`: drop the last component; `none` for the empty
path. -/
def parentOf : FPath → Option FPath
  | [] => none
  | c :: rest => some (List.dropLast (c :: rest))

/-- One subkey of a certificate, with the attributes the policy filter
chain of src/main.rs lines 87-95 inspects (`supported`, `alive`,
`revoked(false)`, `for_transport_encryption`). -/
structure Subkey where
  supported : Bool
  alive : Bool
  revoked : Bool
  forTransportEncryption : Bool
  keyId : Nat
deriving DecidableEq, Repr

/-- A parsed OpenPGP certificate: its list of subkeys. -/
structure Cert where
  subkeys : List Subkey
deriving DecidableEq, Repr

/-- The recipient set derived from a certificate (src/main.rs lines
87-95): keys that are supported, alive, non-revoked and capable of
transport encryption under the policy. -/
def recipientsOf (c : Cert) : List Subkey :=
  c.subkeys.filter fun k =>
    k.supported && k.alive && !k.revoked && k.forTransportEncryption

/-- An entry yielded by directory traversal: its path and whether its
file type is a regular file. -/
structure Entry where
  path : FPath
  isFile : Bool
deriving DecidableEq, Repr

/-- One item of the walkdir iterator: a successful entry or an
enumeration error (src/main.rs line 107 filters the errors away with
`filter_map(|e| e.ok())`). -/
inductive WalkItem where
  | ok (e : Entry)
  | err
deriving DecidableEq, Repr

/-- A filesystem side effect performed by the run. -/
inductive Effect where
  | readFile (p : FPath)
  | createDirAll (p : FPath)
  | writeFile (p : FPath) (data : Bytes)
deriving DecidableEq, Repr

/-- Oracle for the sequoia-openpgp streaming encryptor (src/main.rs
lines 126-155): each fallible stage either fails with an error string or
succeeds, and `ciphertext` is the buffer assembled when all stages
succeed. -/
structure Crypto where
  forRecipientsBuildErr : List Subkey → Option String
  literalBuildErr : Option String
  writeAllErr : Bytes → Option String
  finalizeErr : Bytes → Option String
  ciphertext : List Subkey → Bytes → Bytes

/-- The world a run executes in: the state of the filesystem paths the
program queries, the outcome of each fallible filesystem operation, the
certificate parser and the walkdir iterator contents. -/
structure World where
  pathExists : FPath → Bool
  isDir : FPath → Bool
  createDirErr : FPath → Option String
  readErr : FPath → Option String
  fileData : FPath → Bytes
  writeErr : FPath → Option String
  parseCert : Bytes → Except String Cert
  walk : List WalkItem
  crypto : Crypto

/-- Exit code 0 of src/main.rs. -/
def EXIT_SUCCESS : Int := 0
/-- Exit code 1 of src/main.rs. -/
def EXIT_INVALID_INPUT : Int := 1
/-- Exit code 2 of src/main.rs. -/
def EXIT_KEY_ERROR : Int := 2
/-- Exit code 3 of src/main.rs. -/
def EXIT_ENCRYPTION_ERROR : Int := 3
/-- Exit code 4 of src/main.rs. -/
def EXIT_IO_ERROR : Int := 4

/-- Output path for an input file (src/main.rs lines 158-159):
`opt.output.join(file_path.strip_prefix(&opt.folder).unwrap_or(file_path)).with_extension("pgp")`. -/
def outPathFor (folder output : FPath) (p : FPath) : FPath :=
  withExtension (output ++ (stripRoot folder p).getD p) "pgp"

/-- The body of the per-file loop of src/main.rs lines 117-182 for one
file path: read, the four encryptor stages, parent-directory creation
and the output write.  Returns the effects performed and the error that
aborted the body, when one did. -/
def processFile (w : World) (folder output : FPath) (recips : List Subkey)
    (p : FPath) : List Effect × Option (Int × String) :=
  match w.readErr p with
  | some e =>
    ([Effect.readFile p],
     some (EXIT_IO_ERROR, "Failed to read " ++ display p ++ ": " ++ e))
  | none =>
    let data := w.fileData p
    match w.crypto.forRecipientsBuildErr recips with
    | some e =>
      ([Effect.readFile p],
       some (EXIT_ENCRYPTION_ERROR, "Failed to create encryptor: " ++ e))
    | none =>
      match w.crypto.literalBuildErr with
      | some e =>
        ([Effect.readFile p],
         some (EXIT_ENCRYPTION_ERROR, "Failed to create writer: " ++ e))
      | none =>
        match w.crypto.writeAllErr data with
        | some e =>
          ([Effect.readFile p],
           some (EXIT_ENCRYPTION_ERROR, "Failed to write data: " ++ e))
        | none =>
          match w.crypto.finalizeErr data with
          | some e =>
            ([Effect.readFile p],
             some (EXIT_ENCRYPTION_ERROR,
                   "Failed to finalize encryption: " ++ e))
          | none =>
            let ct := w.crypto.ciphertext recips data
            let outPath := outPathFor folder output p
            let dirEffs : List Effect :=
              match parentOf outPath with
              | some par => [Effect.createDirAll par]
              | none => []
            let dirErr : Option String :=
              match parentOf outPath with
              | some par => w.createDirErr par
              | none => none
            match dirErr with
            | some e =>
              (Effect.readFile p :: dirEffs,
               some (EXIT_IO_ERROR,
                     "Failed to create output directories: " ++ e))
            | none =>
              match w.writeErr outPath with
              | some e =>
                (Effect.readFile p :: dirEffs
                   ++ [Effect.writeFile outPath ct],
                 some (EXIT_IO_ERROR,
                       "Failed to write encrypted file "
                         ++ display outPath ++ ": " ++ e))
              | none =>
                (Effect.readFile p :: dirEffs
                   ++ [Effect.writeFile outPath ct], none)

/-- The traversal loop of src/main.rs lines 105-182: enumeration errors
are discarded by `filter_map(|e| e.ok())`, non-files are discarded by
the `is_file` filter, files with the `pgp` extension are skipped, and
every other file runs `processFile`, aborting the loop on its first
error. -/
def processEntries (w : World) (folder output : FPath)
    (recips : List Subkey) :
    List WalkItem → List Effect × Except (Int × String) Unit
  | [] => ([], Except.ok ())
  | WalkItem.err :: rest => processEntries w folder output recips rest
  | WalkItem.ok e :: rest =>
    if e.isFile && !(alreadyEncrypted e.path) then
      match processFile w folder output recips e.path with
      | (effs, some err) => (effs, Except.error err)
      | (effs, none) =>
        let r := processEntries w folder output recips rest
        (effs ++ r.1, r.2)
    else processEntries w folder output recips rest

/-- The key phase of src/main.rs lines 70-102 followed by the traversal
loop: key-file existence check, key read, certificate parse, recipient
filtering, then the per-file loop. -/
def runKeyPhase (w : World) (folder output key : FPath) :
    List Effect × Except (Int × String) Unit :=
  if !(w.pathExists key) then
    ([], Except.error (EXIT_INVALID_INPUT,
       "Public key file " ++ display key ++ " does not exist"))
  else
    match w.readErr key with
    | some e =>
      ([Effect.readFile key],
       Except.error (EXIT_IO_ERROR, "Failed to read public key: " ++ e))
    | none =>
      match w.parseCert (w.fileData key) with
      | Except.error e =>
        ([Effect.readFile key],
         Except.error (EXIT_KEY_ERROR, "Invalid public key: " ++ e))
      | Except.ok cert =>
        let recipients := recipientsOf cert
        if recipients.isEmpty then
          ([Effect.readFile key],
           Except.error (EXIT_KEY_ERROR,
             "No valid encryption key found in the certificate"))
        else
          let r := processEntries w folder output recipients w.walk
          (Effect.readFile key :: r.1, r.2)

/-- Shallow embedding of `run_with_args` of src/main.rs lines 40-185
(after argument parsing): input-folder validation, output-folder
validation or creation, then the key phase and the traversal loop.
Returns the trace of filesystem effects and the function result. -/
def run_with_args (w : World) (folder output key : FPath) :
    List Effect × Except (Int × String) Unit :=
  if !(w.pathExists folder) || !(w.isDir folder) then
    ([], Except.error (EXIT_INVALID_INPUT,
       "Input folder " ++ display folder
         ++ " does not exist or is not a directory"))
  else if !(w.pathExists output) then
    match w.createDirErr output with
    | some e =>
      ([Effect.createDirAll output],
       Except.error (EXIT_IO_ERROR,
         "Failed to create output directory: " ++ e))
    | none =>
      let r := runKeyPhase w folder output key
      (Effect.createDirAll output :: r.1, r.2)
  else if !(w.isDir output) then
    ([], Except.error (EXIT_INVALID_INPUT,
       "Output path " ++ display output ++ " is not a directory"))
  else
    runKeyPhase w folder output key

/-- The process exit code produced by `main` (src/main.rs lines
187-195) from the result of the run. -/
def mainExitCode (r : List Effect × Except (Int × String) Unit) : Int :=
  match r.2 with
  | Except.ok _ => EXIT_SUCCESS
  | Except.error (c, _) => c

/-- The paths of the write effects of a trace. -/
def writesOf (t : List Effect) : List FPath :=
  t.filterMap fun e =>
    match e with
    | Effect.writeFile p _ => some p
    | _ => none

/-- The contents last written to a path by a trace, when any write to it
occurred. -/
def lastWriteAt (t : List Effect) (p : FPath) : Option Bytes :=
  (t.filterMap fun e =>
    match e with
    | Effect.writeFile q d => if q = p then some d else none
    | _ => none).getLast?

/-- Applying the write effects of a trace to a contents map. -/
def applyTrace (fs : FPath → Option Bytes) : List Effect → FPath → Option Bytes
  | [] => fs
  | Effect.writeFile q d :: rest =>
    applyTrace (fun x => if x = q then some d else fs x) rest
  | Effect.readFile _ :: rest => applyTrace fs rest
  | Effect.createDirAll _ :: rest => applyTrace fs rest

/-- The paths of walk items that the loop encrypts: successful entries
that are regular files and are not marked already encrypted. -/
def processedPaths : List WalkItem → List FPath
  | [] => []
  | WalkItem.ok e :: rest =>
    if e.isFile && !(alreadyEncrypted e.path) then
      e.path :: processedPaths rest
    else processedPaths rest
  | WalkItem.err :: rest => processedPaths rest

/-- The number of successful regular-file entries of a walk. -/
def inputFileCount : List WalkItem → Nat
  | [] => 0
  | WalkItem.ok e :: rest =>
    (if e.isFile then 1 else 0) + inputFileCount rest
  | WalkItem.err :: rest => inputFileCount rest

/-- The number of successful regular-file entries skipped for carrying
the already-encrypted extension. -/
def excludedCount : List WalkItem → Nat
  | [] => 0
  | WalkItem.ok e :: rest =>
    (if e.isFile && alreadyEncrypted e.path then 1 else 0)
      + excludedCount rest
  | WalkItem.err :: rest => excludedCount rest

/-- A certificate with one usable transport-encryption subkey, as the
test helper `setup_test_environment` builds. -/
def okCert : Cert := ⟨[⟨true, true, false, true, 1⟩]⟩

/-- A certificate none of whose subkeys passes the policy filter. -/
def noRecipCert : Cert := ⟨[⟨true, true, false, false, 1⟩]⟩

/-- A crypto oracle whose stages all succeed and whose assembled
ciphertext is a marker byte followed by the plaintext. -/
def okCrypto : Crypto :=
  ⟨fun _ => none, none, fun _ => none, fun _ => none, fun _ d => 9 :: d⟩

/-- A world in which every path exists and is a directory, every
filesystem operation succeeds, every file holds the byte 7 and the key
parses to `okCert`; the walk contents are a parameter. -/
def baseWorld (walk : List WalkItem) : World :=
  { pathExists := fun _ => true
    isDir := fun _ => true
    createDirErr := fun _ => none
    readErr := fun _ => none
    fileData := fun _ => [7]
    writeErr := fun _ => none
    parseCert := fun _ => Except.ok okCert
    walk := walk
    crypto := okCrypto }

/-- C7: an input-directory argument that does not name an existing
directory makes the run fail as invalid input with exit code 1 and an
empty effect trace, so no output is created — in particular the output
directory is not created even when absent. -/
theorem c7_invalid_input_dir (w : World) (folder output key : FPath)
    (h : w.pathExists folder = false ∨ w.isDir folder = false) :
    run_with_args w folder output key =
      ([], Except.error (EXIT_INVALID_INPUT,
        "Input folder " ++ display folder
          ++ " does not exist or is not a directory")) ∧
    mainExitCode (run_with_args w folder output key) = 1 := by
  have hc : (!(w.pathExists folder) || !(w.isDir folder)) = true := by
    rcases h with h | h <;> simp [h]
  refine ⟨by simp [run_with_args, hc], ?_⟩
  simp [run_with_args, hc, mainExitCode, EXIT_INVALID_INPUT]

/-- World whose input directory `in` is missing. -/
def noInputWorld : World :=
  { baseWorld [] with pathExists := fun p => decide (p ≠ ["in"]) }

/-- Witness for C7 at a concrete world with a missing input directory. -/
theorem c7_witness :
    run_with_args noInputWorld ["in"] ["out"] ["key"] =
      ([], Except.error (EXIT_INVALID_INPUT,
        "Input folder " ++ display ["in"]
          ++ " does not exist or is not a directory")) ∧
    mainExitCode (run_with_args noInputWorld ["in"] ["out"] ["key"]) = 1 :=
  c7_invalid_input_dir noInputWorld ["in"] ["out"] ["key"]
    (Or.inl (by decide))

/-- World whose key file `key` is missing. -/
def noKeyWorld : World :=
  { baseWorld [] with pathExists := fun p => decide (p ≠ ["key"]) }

/-- C4 counterexample: with a valid input and output directory but a
key-file path naming no existing file, the run fails with exit code 1
(invalid input), not with the key-error exit code 2 the claim states. -/
theorem c4_counterexample :
    (run_with_args noKeyWorld ["in"] ["out"] ["key"]).2 =
      Except.error (EXIT_INVALID_INPUT,
        "Public key file " ++ display ["key"] ++ " does not exist") ∧
    mainExitCode (run_with_args noKeyWorld ["in"] ["out"] ["key"])
      ≠ EXIT_KEY_ERROR := by
  refine ⟨rfl, by decide⟩

/-- C4 (amended): a run whose key-file path names no existing file (with
the input directory valid and the output directory usable) fails as
invalid input and the process exits with code 1. -/
theorem c4_missing_key (w : World) (folder output key : FPath)
    (hf : w.pathExists folder = true) (hfd : w.isDir folder = true)
    (ho : w.pathExists output = false → w.createDirErr output = none)
    (hod : w.pathExists output = true → w.isDir output = true)
    (hk : w.pathExists key = false) :
    (run_with_args w folder output key).2 =
      Except.error (EXIT_INVALID_INPUT,
        "Public key file " ++ display key ++ " does not exist") ∧
    mainExitCode (run_with_args w folder output key) = EXIT_INVALID_INPUT := by
  by_cases hoe : w.pathExists output = true
  · have hd := hod hoe
    constructor <;>
      simp [run_with_args, runKeyPhase, hf, hfd, hoe, hd, hk, mainExitCode]
  · have hoe' : w.pathExists output = false := by
      revert hoe; cases w.pathExists output <;> simp
    have hce := ho hoe'
    constructor <;>
      simp [run_with_args, runKeyPhase, hf, hfd, hoe', hce, hk, mainExitCode]

/-- Witness for the amended C4 at a concrete world with a missing key
file. -/
theorem c4_missing_key_witness :
    (run_with_args noKeyWorld ["in"] ["out"] ["key"]).2 =
      Except.error (EXIT_INVALID_INPUT,
        "Public key file " ++ display ["key"] ++ " does not exist") ∧
    mainExitCode (run_with_args noKeyWorld ["in"] ["out"] ["key"])
      = EXIT_INVALID_INPUT :=
  c4_missing_key noKeyWorld ["in"] ["out"] ["key"] (by decide) (by decide)
    (by intro h; exact absurd h (by decide)) (fun _ => by decide) (by decide)

/-- C5: with a valid input directory and a usable output directory, a
key file that does not exist fails the run as invalid input with exit
code 1, while a key file whose bytes do not parse as a certificate fails
the run as a key error with exit code 2. -/
theorem c5_key_error_codes (w : World) (folder output key : FPath)
    (hf : w.pathExists folder = true) (hfd : w.isDir folder = true)
    (ho : w.pathExists output = true) (hod : w.isDir output = true) :
    (w.pathExists key = false →
      (run_with_args w folder output key).2 =
        Except.error (EXIT_INVALID_INPUT,
          "Public key file " ++ display key ++ " does not exist") ∧
      mainExitCode (run_with_args w folder output key)
        = EXIT_INVALID_INPUT) ∧
    (∀ e : String, w.pathExists key = true → w.readErr key = none →
      w.parseCert (w.fileData key) = Except.error e →
      (run_with_args w folder output key).2 =
        Except.error (EXIT_KEY_ERROR, "Invalid public key: " ++ e) ∧
      mainExitCode (run_with_args w folder output key) = EXIT_KEY_ERROR) := by
  constructor
  · intro hk
    constructor <;>
      simp [run_with_args, runKeyPhase, hf, hfd, ho, hod, hk, mainExitCode]
  · intro e hk hr hp
    constructor <;>
      simp [run_with_args, runKeyPhase, hf, hfd, ho, hod, hk, hr, hp,
            mainExitCode]

/-- World whose key file holds bytes that do not parse as a
certificate. -/
def badKeyWorld : World :=
  { baseWorld [] with parseCert := fun _ => Except.error "parse" }

/-- Witness for C5 at a concrete world whose key file fails to parse. -/
theorem c5_witness :
    (badKeyWorld.pathExists ["key"] = false →
      (run_with_args badKeyWorld ["in"] ["out"] ["key"]).2 =
        Except.error (EXIT_INVALID_INPUT,
          "Public key file " ++ display ["key"] ++ " does not exist") ∧
      mainExitCode (run_with_args badKeyWorld ["in"] ["out"] ["key"])
        = EXIT_INVALID_INPUT) ∧
    (∀ e : String, badKeyWorld.pathExists ["key"] = true →
      badKeyWorld.readErr ["key"] = none →
      badKeyWorld.parseCert (badKeyWorld.fileData ["key"])
        = Except.error e →
      (run_with_args badKeyWorld ["in"] ["out"] ["key"]).2 =
        Except.error (EXIT_KEY_ERROR, "Invalid public key: " ++ e) ∧
      mainExitCode (run_with_args badKeyWorld ["in"] ["out"] ["key"])
        = EXIT_KEY_ERROR) :=
  c5_key_error_codes badKeyWorld ["in"] ["out"] ["key"]
    (by decide) (by decide) (by decide) (by decide)

/-- C6: when the derived recipient set of the parsed certificate is
empty, the run fails as a key error with exit code 2, and its effect
trace contains no read other than the key file itself, no write at all,
and no directory creation other than (possibly) the output root — so the
failure happens before any file under the input directory is read and
before any output file or per-file directory is created. -/
theorem c6_empty_recipients (w : World) (folder output key : FPath)
    (cert : Cert)
    (hf : w.pathExists folder = true) (hfd : w.isDir folder = true)
    (ho : w.pathExists output = false → w.createDirErr output = none)
    (hod : w.pathExists output = true → w.isDir output = true)
    (hk : w.pathExists key = true) (hr : w.readErr key = none)
    (hp : w.parseCert (w.fileData key) = Except.ok cert)
    (hrec : recipientsOf cert = []) :
    (run_with_args w folder output key).2 =
      Except.error (EXIT_KEY_ERROR,
        "No valid encryption key found in the certificate") ∧
    mainExitCode (run_with_args w folder output key) = EXIT_KEY_ERROR ∧
    (∀ p, Effect.readFile p ∈ (run_with_args w folder output key).1 →
      p = key) ∧
    (∀ p d,
      Effect.writeFile p d ∉ (run_with_args w folder output key).1) ∧
    (∀ p, Effect.createDirAll p ∈ (run_with_args w folder output key).1 →
      p = output) := by
  by_cases hoe : w.pathExists output = true
  · have hd := hod hoe
    refine ⟨?_, ?_, ?_, ?_, ?_⟩ <;>
      simp [run_with_args, runKeyPhase, hf, hfd, hoe, hd, hk, hr, hp,
            hrec, mainExitCode]
  · have hoe' : w.pathExists output = false := by
      revert hoe; cases w.pathExists output <;> simp
    have hce := ho hoe'
    refine ⟨?_, ?_, ?_, ?_, ?_⟩ <;>
      simp [run_with_args, runKeyPhase, hf, hfd, hoe', hce, hk, hr, hp,
            hrec, mainExitCode]

/-- World whose certificate has no encryption-capable subkey. -/
def noRecipWorld : World :=
  { baseWorld [WalkItem.ok ⟨["in", "a.txt"], true⟩] with
      parseCert := fun _ => Except.ok noRecipCert }

/-- Witness for C6 at a concrete world whose certificate carries no
usable encryption subkey. -/
theorem c6_witness :
    (run_with_args noRecipWorld ["in"] ["out"] ["key"]).2 =
      Except.error (EXIT_KEY_ERROR,
        "No valid encryption key found in the certificate") ∧
    mainExitCode (run_with_args noRecipWorld ["in"] ["out"] ["key"])
      = EXIT_KEY_ERROR ∧
    (∀ p, Effect.readFile p
        ∈ (run_with_args noRecipWorld ["in"] ["out"] ["key"]).1 →
      p = ["key"]) ∧
    (∀ p d, Effect.writeFile p d
        ∉ (run_with_args noRecipWorld ["in"] ["out"] ["key"]).1) ∧
    (∀ p, Effect.createDirAll p
        ∈ (run_with_args noRecipWorld ["in"] ["out"] ["key"]).1 →
      p = ["out"]) :=
  c6_empty_recipients noRecipWorld ["in"] ["out"] ["key"] noRecipCert
    (by decide) (by decide) (by intro h; exact absurd h (by decide))
    (fun _ => by decide) (by decide) (by decide) rfl (by decide)

/-- The per-file body always attempts the read of its input file. -/
theorem readFile_mem_processFile (w : World) (f o : FPath)
    (r : List Subkey) (p : FPath) :
    Effect.readFile p ∈ (processFile w f o r p).1 := by
  simp only [processFile]
  cases w.readErr p with
  | some e => simp
  | none =>
    cases w.crypto.forRecipientsBuildErr r with
    | some e => simp
    | none =>
      cases w.crypto.literalBuildErr with
      | some e => simp
      | none =>
        cases w.crypto.writeAllErr (w.fileData p) with
        | some e => simp
        | none =>
          cases w.crypto.finalizeErr (w.fileData p) with
          | some e => simp
          | none =>
            cases parentOf (outPathFor f o p) with
            | some par =>
              cases hc : w.createDirErr par with
              | some e => simp [hc]
              | none =>
                cases hw : w.writeErr (outPathFor f o p) <;> simp [hc, hw]
            | none =>
              cases hw : w.writeErr (outPathFor f o p) <;> simp [hw]

/-- The skip test succeeds exactly when the path extension is the string
`pgp` itself (a case-sensitive comparison). -/
theorem alreadyEncrypted_iff (p : FPath) :
    alreadyEncrypted p = true ↔ pathExtension p = some "pgp" := by
  unfold alreadyEncrypted
  cases h : pathExtension p <;> simp

/-- C2 (amended): any failure of the per-file body — read, encryptor
construction, literal-writer construction, write-all, finalize,
output-directory creation or output write — aborts the traversal loop
immediately with that error, performing no effect for any later entry;
a directory-enumeration failure, by contrast, is silently skipped and
the loop continues (src/main.rs line 107 `filter_map(|e| e.ok())`).  In
particular a failing read aborts with the I/O-error code. -/
theorem c2_fail_fast (w : World) (f o : FPath) (r : List Subkey)
    (e : Entry) (rest : List WalkItem) (effs : List Effect)
    (err : Int × String)
    (hf : e.isFile = true) (hs : alreadyEncrypted e.path = false)
    (hp : processFile w f o r e.path = (effs, some err)) :
    processEntries w f o r (WalkItem.ok e :: rest)
      = (effs, Except.error err) ∧
    processEntries w f o r (WalkItem.err :: rest)
      = processEntries w f o r rest ∧
    (∀ m, w.readErr e.path = some m →
      (processFile w f o r e.path).2 =
        some (EXIT_IO_ERROR,
          "Failed to read " ++ display e.path ++ ": " ++ m)) := by
  refine ⟨?_, rfl, ?_⟩
  · simp [processEntries, hf, hs, hp]
  · intro m hm
    simp [processFile, hm]

/-- World whose file `in/a.txt` fails to read. -/
def readFailWorld : World :=
  { baseWorld [] with
      readErr := fun p => if p = ["in", "a.txt"] then some "boom" else none }

/-- Witness for the amended C2 at a concrete world with a failing file
read followed by another pending entry. -/
theorem c2_witness :
    processEntries readFailWorld ["in"] ["out"] (recipientsOf okCert)
        (WalkItem.ok ⟨["in", "a.txt"], true⟩
          :: [WalkItem.ok ⟨["in", "b.txt"], true⟩])
      = ([Effect.readFile ["in", "a.txt"]],
         Except.error (EXIT_IO_ERROR,
           "Failed to read " ++ display ["in", "a.txt"] ++ ": "
             ++ "boom")) ∧
    processEntries readFailWorld ["in"] ["out"] (recipientsOf okCert)
        (WalkItem.err :: [WalkItem.ok ⟨["in", "b.txt"], true⟩])
      = processEntries readFailWorld ["in"] ["out"] (recipientsOf okCert)
          [WalkItem.ok ⟨["in", "b.txt"], true⟩] ∧
    (∀ m, readFailWorld.readErr ["in", "a.txt"] = some m →
      (processFile readFailWorld ["in"] ["out"] (recipientsOf okCert)
          ["in", "a.txt"]).2 =
        some (EXIT_IO_ERROR,
          "Failed to read " ++ display ["in", "a.txt"] ++ ": " ++ m)) :=
  c2_fail_fast readFailWorld ["in"] ["out"] (recipientsOf okCert)
    ⟨["in", "a.txt"], true⟩ [WalkItem.ok ⟨["in", "b.txt"], true⟩]
    [Effect.readFile ["in", "a.txt"]]
    (EXIT_IO_ERROR,
      "Failed to read " ++ display ["in", "a.txt"] ++ ": " ++ "boom")
    (by decide) (by decide) (by decide)

/-- World whose walk yields an enumeration error followed by a good
file. -/
def enumErrWorld : World :=
  baseWorld [WalkItem.err, WalkItem.ok ⟨["in", "a.txt"], true⟩]

/-- C2 counterexample: a run whose directory enumeration yields a
failure item completes successfully and still encrypts the following
file — an enumeration failure does not abort the run as the claim
states. -/
theorem c2_counterexample :
    WalkItem.err ∈ enumErrWorld.walk ∧
    (run_with_args enumErrWorld ["in"] ["out"] ["key"]).2
      = Except.ok () ∧
    writesOf (run_with_args enumErrWorld ["in"] ["out"] ["key"]).1
      = [["out", "a.pgp"]] := by
  refine ⟨by decide, rfl, by decide⟩

/-- C8: for every regular-file entry of the traversal, when its path
extension is exactly `pgp` the entry is skipped whole — the loop state
is as if the entry were absent, so it is never read, encrypted or
written — and when the extension is anything else (including `PGP` in
other letter case, or no extension at all) the entry is handed to the
per-file body, whose first effect is reading the file. -/
theorem c8_skip_rule (w : World) (f o : FPath) (r : List Subkey)
    (e : Entry) (rest : List WalkItem) (hf : e.isFile = true) :
    (pathExtension e.path = some "pgp" →
      processEntries w f o r (WalkItem.ok e :: rest)
        = processEntries w f o r rest) ∧
    (pathExtension e.path ≠ some "pgp" →
      processEntries w f o r (WalkItem.ok e :: rest)
        = (match processFile w f o r e.path with
           | (effs, some err) => (effs, Except.error err)
           | (effs, none) =>
             (effs ++ (processEntries w f o r rest).1,
              (processEntries w f o r rest).2)) ∧
      Effect.readFile e.path
        ∈ (processEntries w f o r (WalkItem.ok e :: rest)).1) := by
  constructor
  · intro hpgp
    have hs : alreadyEncrypted e.path = true :=
      (alreadyEncrypted_iff e.path).mpr hpgp
    simp [processEntries, hs]
  · intro hpgp
    have hs : alreadyEncrypted e.path = false := by
      cases h : alreadyEncrypted e.path
      · rfl
      · exact absurd ((alreadyEncrypted_iff e.path).mp h) hpgp
    have hmem := readFile_mem_processFile w f o r e.path
    constructor
    · cases hpf : processFile w f o r e.path with
      | mk effs oerr =>
        cases oerr <;> simp [processEntries, hf, hs, hpf]
    · cases hpf : processFile w f o r e.path with
      | mk effs oerr =>
        rw [hpf] at hmem
        cases oerr <;> simp [processEntries, hf, hs, hpf] <;>
          simp at hmem <;> simp [hmem]

/-- Witness for C8 at a file whose extension differs from `pgp` only by
letter case: it is handed to the per-file body and read. -/
theorem c8_witness :
    (pathExtension ["in", "a.PGP"] = some "pgp" →
      processEntries (baseWorld []) ["in"] ["out"] (recipientsOf okCert)
          (WalkItem.ok ⟨["in", "a.PGP"], true⟩ :: [])
        = processEntries (baseWorld []) ["in"] ["out"]
            (recipientsOf okCert) []) ∧
    (pathExtension ["in", "a.PGP"] ≠ some "pgp" →
      processEntries (baseWorld []) ["in"] ["out"] (recipientsOf okCert)
          (WalkItem.ok ⟨["in", "a.PGP"], true⟩ :: [])
        = (match processFile (baseWorld []) ["in"] ["out"]
              (recipientsOf okCert) ["in", "a.PGP"] with
           | (effs, some err) => (effs, Except.error err)
           | (effs, none) =>
             (effs ++ (processEntries (baseWorld []) ["in"] ["out"]
                 (recipientsOf okCert) []).1,
              (processEntries (baseWorld []) ["in"] ["out"]
                 (recipientsOf okCert) []).2)) ∧
      Effect.readFile ["in", "a.PGP"]
        ∈ (processEntries (baseWorld []) ["in"] ["out"]
            (recipientsOf okCert)
            (WalkItem.ok ⟨["in", "a.PGP"], true⟩ :: [])).1) :=
  c8_skip_rule (baseWorld []) ["in"] ["out"] (recipientsOf okCert)
    ⟨["in", "a.PGP"], true⟩ [] (by decide)

/-- Unfolding of the traversal loop at a processed entry whose body
succeeds. -/
theorem processEntries_cons_ok (w : World) (f o : FPath)
    (r : List Subkey) (e : Entry) (rest : List WalkItem)
    (h : (e.isFile && !(alreadyEncrypted e.path)) = true)
    (effs : List Effect)
    (hpf : processFile w f o r e.path = (effs, none)) :
    processEntries w f o r (WalkItem.ok e :: rest) =
      (effs ++ (processEntries w f o r rest).1,
       (processEntries w f o r rest).2) := by
  simp [processEntries, h, hpf]

/-- Unfolding of the traversal loop at an entry that the filters
discard. -/
theorem processEntries_cons_skip (w : World) (f o : FPath)
    (r : List Subkey) (e : Entry) (rest : List WalkItem)
    (h : (e.isFile && !(alreadyEncrypted e.path)) = false) :
    processEntries w f o r (WalkItem.ok e :: rest) =
      processEntries w f o r rest := by
  simp [processEntries, h]

/-- The per-file body when every operation it performs succeeds: it
reads the file, creates the parent output directory and writes the
assembled ciphertext to the computed output path, with no error. -/
theorem processFile_ok (w : World) (f o : FPath) (r : List Subkey)
    (p : FPath)
    (hre : w.readErr p = none)
    (henc : w.crypto.forRecipientsBuildErr r = none)
    (hlit : w.crypto.literalBuildErr = none)
    (hwa : w.crypto.writeAllErr (w.fileData p) = none)
    (hfin : w.crypto.finalizeErr (w.fileData p) = none)
    (hcd : ∀ q, w.createDirErr q = none)
    (hw : w.writeErr (outPathFor f o p) = none) :
    processFile w f o r p =
      (Effect.readFile p ::
        ((match parentOf (outPathFor f o p) with
          | some par => [Effect.createDirAll par]
          | none => []) ++
         [Effect.writeFile (outPathFor f o p)
           (w.crypto.ciphertext r (w.fileData p))]), none) := by
  simp only [processFile, hre, henc, hlit, hwa, hfin]
  cases hp : parentOf (outPathFor f o p) <;> simp [hp, hcd, hw]

/-- The write effects of a successful per-file body are exactly one
write at the computed output path. -/
theorem writesOf_processFile_ok (w : World) (f o : FPath)
    (r : List Subkey) (p : FPath)
    (hre : w.readErr p = none)
    (henc : w.crypto.forRecipientsBuildErr r = none)
    (hlit : w.crypto.literalBuildErr = none)
    (hwa : w.crypto.writeAllErr (w.fileData p) = none)
    (hfin : w.crypto.finalizeErr (w.fileData p) = none)
    (hcd : ∀ q, w.createDirErr q = none)
    (hw : w.writeErr (outPathFor f o p) = none) :
    writesOf (processFile w f o r p).1 = [outPathFor f o p] := by
  rw [processFile_ok w f o r p hre henc hlit hwa hfin hcd hw]
  cases hp : parentOf (outPathFor f o p) <;> simp [hp, writesOf]

/-- When every filesystem and crypto operation succeeds, the traversal
loop completes without error and performs exactly one ciphertext write
per processed entry, at that entry's computed output path, in traversal
order. -/
theorem processEntries_all_ok (w : World) (f o : FPath)
    (r : List Subkey)
    (hre : ∀ p, w.readErr p = none)
    (henc : w.crypto.forRecipientsBuildErr r = none)
    (hlit : w.crypto.literalBuildErr = none)
    (hwa : ∀ b, w.crypto.writeAllErr b = none)
    (hfin : ∀ b, w.crypto.finalizeErr b = none)
    (hcd : ∀ q, w.createDirErr q = none)
    (hw : ∀ q, w.writeErr q = none) :
    ∀ walk : List WalkItem,
      (processEntries w f o r walk).2 = Except.ok () ∧
      writesOf (processEntries w f o r walk).1 =
        (processedPaths walk).map (outPathFor f o) := by
  intro walk
  induction walk with
  | nil => simp [processEntries, writesOf, processedPaths]
  | cons it rest ih =>
    cases it with
    | err =>
      simpa [processEntries, processedPaths] using ih
    | ok e =>
      by_cases hfe : (e.isFile && !(alreadyEncrypted e.path)) = true
      · have hpf := processFile_ok w f o r e.path (hre e.path) henc hlit
          (hwa _) (hfin _) hcd (hw _)
        have hws := writesOf_processFile_ok w f o r e.path (hre e.path)
          henc hlit (hwa _) (hfin _) hcd (hw _)
        rw [hpf] at hws
        rw [processEntries_cons_ok w f o r e rest hfe _ hpf]
        refine ⟨ih.1, ?_⟩
        simp only [writesOf, List.filterMap_append] at ih ⊢
        rw [ih.2]
        cases hp : parentOf (outPathFor f o e.path) <;>
          simp [processedPaths, hfe, hp]
      · have hfe' : (e.isFile && !(alreadyEncrypted e.path)) = false := by
          revert hfe; cases (e.isFile && !(alreadyEncrypted e.path)) <;> simp
        rw [processEntries_cons_skip w f o r e rest hfe']
        refine ⟨ih.1, ?_⟩
        rw [ih.2]
        simp [processedPaths, hfe']

/-- Partition of the traversal entries: processed plus excluded equals
the regular-file count. -/
theorem processed_add_excluded (walk : List WalkItem) :
    (processedPaths walk).length + excludedCount walk
      = inputFileCount walk := by
  induction walk with
  | nil => simp [processedPaths, excludedCount, inputFileCount]
  | cons it rest ih =>
    cases it with
    | err => simpa [processedPaths, excludedCount, inputFileCount] using ih
    | ok e =>
      cases hf : e.isFile <;> cases ha : alreadyEncrypted e.path <;>
        simp [processedPaths, excludedCount, inputFileCount, hf, ha] <;>
        omega

/-- C1 (amended): for a certificate with a non-empty derived recipient
set and a run in which every filesystem and crypto operation succeeds,
the run finishes without error and performs exactly one ciphertext
write per non-excluded regular file — input file count minus
excluded-extension count; when no two processed files map to the same
output path, the number of distinct output files written equals that
same count. -/
theorem c1_output_counts (w : World) (folder output key : FPath)
    (cert : Cert)
    (hf : w.pathExists folder = true) (hfd : w.isDir folder = true)
    (ho : w.pathExists output = true) (hod : w.isDir output = true)
    (hk : w.pathExists key = true)
    (hre : ∀ p, w.readErr p = none)
    (hpc : w.parseCert (w.fileData key) = Except.ok cert)
    (hrec : recipientsOf cert ≠ [])
    (henc : w.crypto.forRecipientsBuildErr (recipientsOf cert) = none)
    (hlit : w.crypto.literalBuildErr = none)
    (hwa : ∀ b, w.crypto.writeAllErr b = none)
    (hfin : ∀ b, w.crypto.finalizeErr b = none)
    (hcd : ∀ q, w.createDirErr q = none)
    (hwr : ∀ q, w.writeErr q = none)
    (hnodup :
      ((processedPaths w.walk).map (outPathFor folder output)).Nodup) :
    (run_with_args w folder output key).2 = Except.ok () ∧
    writesOf (run_with_args w folder output key).1 =
      (processedPaths w.walk).map (outPathFor folder output) ∧
    (writesOf (run_with_args w folder output key).1).dedup.length
      = (processedPaths w.walk).length ∧
    (processedPaths w.walk).length + excludedCount w.walk
      = inputFileCount w.walk := by
  have hloop := processEntries_all_ok w folder output (recipientsOf cert)
    hre henc hlit hwa hfin hcd hwr w.walk
  have hempty : (recipientsOf cert).isEmpty = false := by
    cases hc : recipientsOf cert with
    | nil => exact absurd hc hrec
    | cons a l => rfl
  have hrun : run_with_args w folder output key =
      (Effect.readFile key ::
         (processEntries w folder output (recipientsOf cert) w.walk).1,
       (processEntries w folder output (recipientsOf cert) w.walk).2) := by
    simp [run_with_args, runKeyPhase, hf, hfd, ho, hod, hk, hre key,
          hpc, hempty]
  rw [hrun]
  refine ⟨hloop.1, ?_, ?_, processed_add_excluded w.walk⟩
  · simpa [writesOf] using hloop.2
  · have hw2 : writesOf (Effect.readFile key ::
        (processEntries w folder output (recipientsOf cert) w.walk).1)
        = (processedPaths w.walk).map (outPathFor folder output) := by
      simpa [writesOf] using hloop.2
    rw [hw2, List.dedup_eq_self.mpr hnodup, List.length_map]

/-- A walk with one plain file, one already-encrypted file, one
directory and one enumeration error. -/
def mixWalk : List WalkItem :=
  [WalkItem.ok ⟨["in", "a.txt"], true⟩,
   WalkItem.ok ⟨["in", "b.pgp"], true⟩,
   WalkItem.ok ⟨["in", "sub"], false⟩,
   WalkItem.err]

/-- All-success world over `mixWalk`. -/
def mixWorld : World := baseWorld mixWalk

/-- Witness for the amended C1 at a concrete world with one processed
file, one excluded file and one directory entry. -/
theorem c1_witness :
    (run_with_args mixWorld ["in"] ["out"] ["key"]).2 = Except.ok () ∧
    writesOf (run_with_args mixWorld ["in"] ["out"] ["key"]).1 =
      (processedPaths mixWorld.walk).map (outPathFor ["in"] ["out"]) ∧
    (writesOf (run_with_args mixWorld ["in"] ["out"] ["key"]).1).dedup.length
      = (processedPaths mixWorld.walk).length ∧
    (processedPaths mixWorld.walk).length + excludedCount mixWorld.walk
      = inputFileCount mixWorld.walk :=
  c1_output_counts mixWorld ["in"] ["out"] ["key"] okCert
    (by decide) (by decide) (by decide) (by decide) (by decide)
    (fun _ => rfl) rfl (by decide) rfl rfl (fun _ => rfl) (fun _ => rfl)
    (fun _ => rfl) (fun _ => rfl) (by decide)

/-- All-success world whose two input files differ only in their final
extension. -/
def collideWorld : World :=
  baseWorld [WalkItem.ok ⟨["in", "a.txt"], true⟩,
             WalkItem.ok ⟨["in", "a.md"], true⟩]

/-- C1 counterexample: a run over two plaintext input files differing
only in extension succeeds with two processed files and no excluded
file, yet writes only one distinct output file — so output file count
is not input count minus excluded count. -/
theorem c1_counterexample :
    (run_with_args collideWorld ["in"] ["out"] ["key"]).2
      = Except.ok () ∧
    (processedPaths collideWorld.walk).length = 2 ∧
    excludedCount collideWorld.walk = 0 ∧
    inputFileCount collideWorld.walk = 2 ∧
    (writesOf
      (run_with_args collideWorld ["in"] ["out"] ["key"]).1).dedup.length
      = 1 :=
  ⟨rfl, by decide, by decide, by decide, by decide⟩

/-- `strip_prefix` succeeds on any extension of the root and returns
the remainder. -/
theorem stripRoot_append (f r : FPath) : stripRoot f (f ++ r) = some r := by
  induction f with
  | nil => rfl
  | cons a as ih => simp [stripRoot, ih]

/-- `with_extension` rewrites only the final component. -/
theorem withExtension_concat (xs : List String) (n ext : String) :
    withExtension (xs ++ [n]) ext = xs ++ [withExtensionName n ext] := by
  induction xs with
  | nil => rfl
  | cons a xs ih =>
    cases xs with
    | nil => rfl
    | cons b t =>
      simp only [List.cons_append] at ih ⊢
      rw [withExtension, ih]

/-- `parent` of a non-empty path drops its final component. -/
theorem parentOf_concat (xs : FPath) (a : String) :
    parentOf (xs ++ [a]) = some xs := by
  cases xs with
  | nil => rfl
  | cons x t =>
    show some (((x :: t) ++ [a]).dropLast) = some (x :: t)
    rw [List.dropLast_concat]

/-- The mirrored-mode output path of a file at `f ++ d ++ [n]`: the
relative directory is re-rooted under the output root and the file name
gets the `pgp` extension. -/
theorem outPathFor_concat (f o d : FPath) (n : String) :
    outPathFor f o ((f ++ d) ++ [n])
      = (o ++ d) ++ [withExtensionName n "pgp"] := by
  rw [List.append_assoc]
  unfold outPathFor
  rw [stripRoot_append]
  show withExtension (o ++ (d ++ [n])) "pgp" = _
  rw [← List.append_assoc, withExtension_concat]

/-- C9: the mirrored-mode output mapping is not injective — two input
files at the same relative directory whose names share the same stem
(differing only in their final extension) are both written to the very
same output path, so an otherwise successful run over the two performs
two writes to one path: the ciphertext of the later file overwrites that
of the earlier one, and only one distinct output file results. -/
theorem c9_collision (w : World) (folder output key d : FPath)
    (n1 n2 : String) (cert : Cert)
    (hstem : fileStem n1 = fileStem n2) (hne : n1 ≠ n2)
    (hwalk : w.walk =
      [WalkItem.ok ⟨(folder ++ d) ++ [n1], true⟩,
       WalkItem.ok ⟨(folder ++ d) ++ [n2], true⟩])
    (hs1 : alreadyEncrypted ((folder ++ d) ++ [n1]) = false)
    (hs2 : alreadyEncrypted ((folder ++ d) ++ [n2]) = false)
    (hf : w.pathExists folder = true) (hfd : w.isDir folder = true)
    (ho : w.pathExists output = true) (hod : w.isDir output = true)
    (hk : w.pathExists key = true)
    (hre : ∀ p, w.readErr p = none)
    (hpc : w.parseCert (w.fileData key) = Except.ok cert)
    (hrec : recipientsOf cert ≠ [])
    (henc : w.crypto.forRecipientsBuildErr (recipientsOf cert) = none)
    (hlit : w.crypto.literalBuildErr = none)
    (hwa : ∀ b, w.crypto.writeAllErr b = none)
    (hfin : ∀ b, w.crypto.finalizeErr b = none)
    (hcd : ∀ q, w.createDirErr q = none)
    (hwr : ∀ q, w.writeErr q = none) :
    outPathFor folder output ((folder ++ d) ++ [n1])
      = outPathFor folder output ((folder ++ d) ++ [n2]) ∧
    (run_with_args w folder output key).2 = Except.ok () ∧
    writesOf (run_with_args w folder output key).1 =
      [outPathFor folder output ((folder ++ d) ++ [n1]),
       outPathFor folder output ((folder ++ d) ++ [n1])] ∧
    (writesOf (run_with_args w folder output key).1).dedup.length = 1 ∧
    lastWriteAt (run_with_args w folder output key).1
        (outPathFor folder output ((folder ++ d) ++ [n1]))
      = some (w.crypto.ciphertext (recipientsOf cert)
          (w.fileData ((folder ++ d) ++ [n2]))) := by
  have hop1 := outPathFor_concat folder output d n1
  have hop2 : outPathFor folder output ((folder ++ d) ++ [n2])
      = (output ++ d) ++ [withExtensionName n1 "pgp"] := by
    rw [outPathFor_concat]
    simp [withExtensionName, hstem]
  have heqop : outPathFor folder output ((folder ++ d) ++ [n1])
      = outPathFor folder output ((folder ++ d) ++ [n2]) := by
    rw [hop1, hop2]
  have hempty : (recipientsOf cert).isEmpty = false := by
    cases hc : recipientsOf cert with
    | nil => exact absurd hc hrec
    | cons a l => rfl
  have hpf1 := processFile_ok w folder output (recipientsOf cert)
    ((folder ++ d) ++ [n1]) (hre _) henc hlit (hwa _) (hfin _) hcd (hwr _)
  have hpf2 := processFile_ok w folder output (recipientsOf cert)
    ((folder ++ d) ++ [n2]) (hre _) henc hlit (hwa _) (hfin _) hcd (hwr _)
  rw [hop1, parentOf_concat] at hpf1
  rw [hop2, parentOf_concat] at hpf2
  have hg1 : ((Entry.mk ((folder ++ d) ++ [n1]) true).isFile
      && !(alreadyEncrypted (Entry.mk ((folder ++ d) ++ [n1]) true).path))
      = true := by
    show (true && !(alreadyEncrypted ((folder ++ d) ++ [n1]))) = true
    rw [hs1]
    rfl
  have hg2 : ((Entry.mk ((folder ++ d) ++ [n2]) true).isFile
      && !(alreadyEncrypted (Entry.mk ((folder ++ d) ++ [n2]) true).path))
      = true := by
    show (true && !(alreadyEncrypted ((folder ++ d) ++ [n2]))) = true
    rw [hs2]
    rfl
  have hloop : processEntries w folder output (recipientsOf cert) w.walk =
      ([Effect.readFile ((folder ++ d) ++ [n1]),
        Effect.createDirAll (output ++ d),
        Effect.writeFile ((output ++ d) ++ [withExtensionName n1 "pgp"])
          (w.crypto.ciphertext (recipientsOf cert)
            (w.fileData ((folder ++ d) ++ [n1]))),
        Effect.readFile ((folder ++ d) ++ [n2]),
        Effect.createDirAll (output ++ d),
        Effect.writeFile ((output ++ d) ++ [withExtensionName n1 "pgp"])
          (w.crypto.ciphertext (recipientsOf cert)
            (w.fileData ((folder ++ d) ++ [n2])))],
       Except.ok ()) := by
    rw [hwalk]
    rw [processEntries_cons_ok w folder output (recipientsOf cert)
      ⟨(folder ++ d) ++ [n1], true⟩ _ hg1 _ hpf1]
    rw [processEntries_cons_ok w folder output (recipientsOf cert)
      ⟨(folder ++ d) ++ [n2], true⟩ _ hg2 _ hpf2]
    simp [processEntries]
  have hrun : run_with_args w folder output key =
      (Effect.readFile key ::
         (processEntries w folder output (recipientsOf cert) w.walk).1,
       (processEntries w folder output (recipientsOf cert) w.walk).2) := by
    simp [run_with_args, runKeyPhase, hf, hfd, ho, hod, hk, hre key,
          hpc, hempty]
  rw [hrun, hloop]
  refine ⟨heqop, rfl, ?_, ?_, ?_⟩
  · rw [hop1]
    simp [writesOf]
  · have hded :
        ∀ x : FPath, ([x, x] : List FPath).dedup = [x] := by
      intro x
      rw [List.dedup_cons_of_mem (List.mem_singleton.mpr rfl)]
      rfl
    simp only [writesOf, List.filterMap]
    simp [hded]
  · rw [hop1]
    simp [lastWriteAt]

/-- Witness for C9 at a concrete world with input files `a.txt` and
`a.md` colliding on output path `a.pgp`. -/
theorem c9_witness :
    outPathFor ["in"] ["out"] ((["in"] ++ []) ++ ["a.txt"])
      = outPathFor ["in"] ["out"] ((["in"] ++ []) ++ ["a.md"]) ∧
    (run_with_args collideWorld ["in"] ["out"] ["key"]).2
      = Except.ok () ∧
    writesOf (run_with_args collideWorld ["in"] ["out"] ["key"]).1 =
      [outPathFor ["in"] ["out"] ((["in"] ++ []) ++ ["a.txt"]),
       outPathFor ["in"] ["out"] ((["in"] ++ []) ++ ["a.txt"])] ∧
    (writesOf
      (run_with_args collideWorld ["in"] ["out"] ["key"]).1).dedup.length
      = 1 ∧
    lastWriteAt (run_with_args collideWorld ["in"] ["out"] ["key"]).1
        (outPathFor ["in"] ["out"] ((["in"] ++ []) ++ ["a.txt"]))
      = some (collideWorld.crypto.ciphertext (recipientsOf okCert)
          (collideWorld.fileData ((["in"] ++ []) ++ ["a.md"]))) :=
  c9_collision collideWorld ["in"] ["out"] ["key"] [] "a.txt" "a.md"
    okCert (by decide) (by decide) rfl (by decide) (by decide)
    (by decide) (by decide) (by decide) (by decide) (by decide)
    (fun _ => rfl) rfl (by decide) rfl rfl (fun _ => rfl) (fun _ => rfl)
    (fun _ => rfl) (fun _ => rfl)

/-- Every effect of the per-file body is the read of its input file, the
creation of the parent of its computed output path, or a write at that
output path. -/
theorem mem_processFile_effects (w : World) (f o : FPath)
    (r : List Subkey) (p : FPath) (eff : Effect)
    (h : eff ∈ (processFile w f o r p).1) :
    eff = Effect.readFile p ∨
    (∃ par, parentOf (outPathFor f o p) = some par ∧
      eff = Effect.createDirAll par) ∨
    (∃ b, eff = Effect.writeFile (outPathFor f o p) b) := by
  simp only [processFile] at h
  cases h1 : w.readErr p with
  | some e => simp [h1] at h; exact Or.inl h
  | none =>
  simp only [h1] at h
  cases h2 : w.crypto.forRecipientsBuildErr r with
  | some e => simp [h2] at h; exact Or.inl h
  | none =>
  simp only [h2] at h
  cases h3 : w.crypto.literalBuildErr with
  | some e => simp [h3] at h; exact Or.inl h
  | none =>
  simp only [h3] at h
  cases h4 : w.crypto.writeAllErr (w.fileData p) with
  | some e => simp [h4] at h; exact Or.inl h
  | none =>
  simp only [h4] at h
  cases h5 : w.crypto.finalizeErr (w.fileData p) with
  | some e => simp [h5] at h; exact Or.inl h
  | none =>
  simp only [h5] at h
  cases h6 : parentOf (outPathFor f o p) with
  | some par =>
    simp only [h6] at h
    cases h7 : w.createDirErr par with
    | some e =>
      simp [h7] at h
      rcases h with h | h
      · exact Or.inl h
      · exact Or.inr (Or.inl ⟨par, rfl, h⟩)
    | none =>
      cases h8 : w.writeErr (outPathFor f o p) <;>
        simp [h7, h8] at h <;>
        rcases h with h | h | h
      · exact Or.inl h
      · exact Or.inr (Or.inl ⟨par, rfl, h⟩)
      · exact Or.inr (Or.inr ⟨_, h⟩)
      · exact Or.inl h
      · exact Or.inr (Or.inl ⟨par, rfl, h⟩)
      · exact Or.inr (Or.inr ⟨_, h⟩)
  | none =>
    simp only [h6] at h
    cases h8 : w.writeErr (outPathFor f o p) <;>
      simp [h8] at h <;>
      rcases h with h | h
    · exact Or.inl h
    · exact Or.inr (Or.inr ⟨_, h⟩)
    · exact Or.inl h
    · exact Or.inr (Or.inr ⟨_, h⟩)

/-- Every effect of the traversal loop belongs to the per-file body of
some processed regular-file entry of the walk. -/
theorem mem_processEntries (w : World) (f o : FPath) (r : List Subkey) :
    ∀ (walk : List WalkItem) (eff : Effect),
      eff ∈ (processEntries w f o r walk).1 →
      ∃ e : Entry, WalkItem.ok e ∈ walk ∧
        (e.isFile && !(alreadyEncrypted e.path)) = true ∧
        eff ∈ (processFile w f o r e.path).1 := by
  intro walk
  induction walk with
  | nil => intro eff h; simp [processEntries] at h
  | cons it rest ih =>
    intro eff h
    cases it with
    | err =>
      obtain ⟨e, he, hg, hm⟩ := ih eff h
      exact ⟨e, by simp [he], hg, hm⟩
    | ok e =>
      by_cases hg : (e.isFile && !(alreadyEncrypted e.path)) = true
      · cases hpf : processFile w f o r e.path with
        | mk effs oerr =>
          cases oerr with
          | some err =>
            have hu : processEntries w f o r (WalkItem.ok e :: rest)
                = (effs, Except.error err) := by
              simp [processEntries, hg, hpf]
            rw [hu] at h
            exact ⟨e, by simp, hg, by rw [hpf]; exact h⟩
          | none =>
            rw [processEntries_cons_ok w f o r e rest hg effs hpf] at h
            rcases List.mem_append.mp h with h | h
            · exact ⟨e, by simp, hg, by rw [hpf]; exact h⟩
            · obtain ⟨e2, he2, hg2, hm2⟩ := ih eff h
              exact ⟨e2, by simp [he2], hg2, hm2⟩
      · have hg' : (e.isFile && !(alreadyEncrypted e.path)) = false := by
          revert hg; cases (e.isFile && !(alreadyEncrypted e.path)) <;> simp
        rw [processEntries_cons_skip w f o r e rest hg'] at h
        obtain ⟨e2, he2, hg2, hm2⟩ := ih eff h
        exact ⟨e2, by simp [he2], hg2, hm2⟩

/-- Every effect of the key phase is the read of the key file or an
effect of the traversal loop. -/
theorem mem_runKeyPhase (w : World) (f o k : FPath) (eff : Effect)
    (h : eff ∈ (runKeyPhase w f o k).1) :
    eff = Effect.readFile k ∨
    ∃ r, eff ∈ (processEntries w f o r w.walk).1 := by
  simp only [runKeyPhase] at h
  cases hk : w.pathExists k with
  | false => simp [hk] at h
  | true =>
  simp only [hk] at h
  cases h1 : w.readErr k with
  | some e => simp [h1] at h; exact Or.inl h
  | none =>
  simp only [h1] at h
  cases h2 : w.parseCert (w.fileData k) with
  | error e => simp [h2] at h; exact Or.inl h
  | ok cert =>
    simp only [h2] at h
    cases h3 : (recipientsOf cert).isEmpty with
    | true => simp [h3] at h; exact Or.inl h
    | false =>
      simp [h3] at h
      rcases h with h | h
      · exact Or.inl h
      · exact Or.inr ⟨recipientsOf cert, h⟩

/-- Every effect of the run is the creation of the output root, or an
effect of the key phase. -/
theorem mem_run_effects (w : World) (f o k : FPath) (eff : Effect)
    (h : eff ∈ (run_with_args w f o k).1) :
    eff = Effect.createDirAll o ∨ eff ∈ (runKeyPhase w f o k).1 := by
  simp only [run_with_args] at h
  split at h
  · simp at h
  · split at h
    · split at h
      · simp at h; exact Or.inl h
      · simp at h
        rcases h with h | h
        · exact Or.inl h
        · exact Or.inr h
    · split at h
      · simp at h
      · exact Or.inr h

/-- A trace with no write at `p` leaves the contents at `p`
unchanged. -/
theorem applyTrace_eq_of_no_write (t : List Effect) :
    ∀ (fs : FPath → Option Bytes) (p : FPath),
      (∀ q b, Effect.writeFile q b ∈ t → q ≠ p) →
      applyTrace fs t p = fs p := by
  induction t with
  | nil => intro fs p _; rfl
  | cons eff rest ih =>
    intro fs p h
    cases eff with
    | readFile q =>
      exact ih fs p fun q2 b2 hm => h q2 b2 (List.mem_cons_of_mem _ hm)
    | createDirAll q =>
      exact ih fs p fun q2 b2 hm => h q2 b2 (List.mem_cons_of_mem _ hm)
    | writeFile q b =>
      have hq : q ≠ p := h q b (List.mem_cons_self _ _)
      show applyTrace (fun x => if x = q then some b else fs x) rest p
        = fs p
      rw [ih _ p fun q2 b2 hm => h q2 b2 (List.mem_cons_of_mem _ hm)]
      exact if_neg fun hh => hq hh.symm

/-- C10 (amended): when every regular-file walk entry lies strictly
under the input root (walkdir's contract once the root was validated as
a directory), every write or directory creation of a mirrored-mode run
targets the output root or a path under it, and every read is the key
file or a path under the input root; consequently, when neither root
lies inside the other, the contents at every path under the input
directory are unchanged by the run. -/
theorem c10_frame (w : World) (folder output key : FPath)
    (hwalk : ∀ e : Entry, WalkItem.ok e ∈ w.walk →
      folder <+: e.path ∧ e.path ≠ folder) :
    (∀ p b,
      Effect.writeFile p b ∈ (run_with_args w folder output key).1 →
      output <+: p) ∧
    (∀ p,
      Effect.createDirAll p ∈ (run_with_args w folder output key).1 →
      output <+: p) ∧
    (∀ p,
      Effect.readFile p ∈ (run_with_args w folder output key).1 →
      p = key ∨ folder <+: p) ∧
    (¬ folder <+: output → ¬ output <+: folder →
      ∀ (fs : FPath → Option Bytes) (p : FPath), folder <+: p →
        applyTrace fs (run_with_args w folder output key).1 p = fs p) := by
  have hmaster : ∀ eff, eff ∈ (run_with_args w folder output key).1 →
      eff = Effect.createDirAll output ∨ eff = Effect.readFile key ∨
      ∃ (e : Entry) (xs : FPath) (n : String),
        WalkItem.ok e ∈ w.walk ∧ e.path = (folder ++ xs) ++ [n] ∧
        (eff = Effect.readFile e.path ∨
         eff = Effect.createDirAll (output ++ xs) ∨
         ∃ b, eff = Effect.writeFile
           ((output ++ xs) ++ [withExtensionName n "pgp"]) b) := by
    intro eff hmem
    rcases mem_run_effects w folder output key eff hmem with h | h
    · exact Or.inl h
    rcases mem_runKeyPhase w folder output key eff h with h | ⟨r, h⟩
    · exact Or.inr (Or.inl h)
    obtain ⟨e, he, hg, hm⟩ := mem_processEntries w folder output r
      w.walk eff h
    obtain ⟨hpre, hnee⟩ := hwalk e he
    obtain ⟨t, ht⟩ := hpre
    have htne : t ≠ [] := by
      intro h0; rw [h0, List.append_nil] at ht; exact hnee ht.symm
    rcases List.eq_nil_or_concat t with h0 | ⟨xs, n, hxs⟩
    · exact absurd h0 htne
    have hep : e.path = (folder ++ xs) ++ [n] := by
      rw [← ht, hxs, List.concat_eq_append, ← List.append_assoc]
    have hout : outPathFor folder output e.path
        = (output ++ xs) ++ [withExtensionName n "pgp"] := by
      rw [hep, outPathFor_concat]
    have hpar : parentOf (outPathFor folder output e.path)
        = some (output ++ xs) := by
      rw [hout, parentOf_concat]
    rcases mem_processFile_effects w folder output r e.path eff hm with
      h | ⟨par, hp, hef⟩ | ⟨b, hef⟩
    · exact Or.inr (Or.inr ⟨e, xs, n, he, hep, Or.inl h⟩)
    · rw [hpar] at hp
      injection hp with hp'
      subst hp'
      exact Or.inr (Or.inr ⟨e, xs, n, he, hep, Or.inr (Or.inl hef)⟩)
    · rw [hout] at hef
      exact Or.inr (Or.inr ⟨e, xs, n, he, hep,
        Or.inr (Or.inr ⟨b, hef⟩)⟩)
  have hwrites : ∀ p b,
      Effect.writeFile p b ∈ (run_with_args w folder output key).1 →
      output <+: p := by
    intro p b hmem
    rcases hmaster _ hmem with h | h |
      ⟨e, xs, n, he, hep, h | h | ⟨b2, h⟩⟩
    · simp at h
    · simp at h
    · simp at h
    · simp at h
    · injection h with hp hb
      rw [hp, List.append_assoc]
      exact List.prefix_append _ _
  have hcreates : ∀ p,
      Effect.createDirAll p ∈ (run_with_args w folder output key).1 →
      output <+: p := by
    intro p hmem
    rcases hmaster _ hmem with h | h |
      ⟨e, xs, n, he, hep, h | h | ⟨b2, h⟩⟩
    · injection h with hp
      rw [hp]
    · simp at h
    · simp at h
    · injection h with hp
      rw [hp]
      exact List.prefix_append _ _
    · simp at h
  have hreads : ∀ p,
      Effect.readFile p ∈ (run_with_args w folder output key).1 →
      p = key ∨ folder <+: p := by
    intro p hmem
    rcases hmaster _ hmem with h | h |
      ⟨e, xs, n, he, hep, h | h | ⟨b2, h⟩⟩
    · simp at h
    · injection h with hp
      exact Or.inl hp
    · injection h with hp
      rw [hp, hep, List.append_assoc]
      exact Or.inr (List.prefix_append _ _)
    · simp at h
    · simp at h
  refine ⟨hwrites, hcreates, hreads, ?_⟩
  intro hfo hof fs p hp
  apply applyTrace_eq_of_no_write
  intro q b hmem hqp
  rw [hqp] at hmem
  have hoq := hwrites p b hmem
  rcases List.prefix_or_prefix_of_prefix hoq hp with h | h
  · exact hof h
  · exact hfo h

/-- World with one input file strictly below the input root
`home/in`. -/
def cw10 : World := baseWorld [WalkItem.ok ⟨["in", "a.txt"], true⟩]

/-- Witness for the amended C10 at a concrete world with incomparable
input and output roots. -/
theorem c10_witness :
    (∀ p b,
      Effect.writeFile p b ∈ (run_with_args cw10 ["in"] ["out"] ["key"]).1 →
      ["out"] <+: p) ∧
    (∀ p,
      Effect.createDirAll p
        ∈ (run_with_args cw10 ["in"] ["out"] ["key"]).1 →
      ["out"] <+: p) ∧
    (∀ p,
      Effect.readFile p ∈ (run_with_args cw10 ["in"] ["out"] ["key"]).1 →
      p = ["key"] ∨ ["in"] <+: p) ∧
    (¬ (["in"] : FPath) <+: ["out"] → ¬ (["out"] : FPath) <+: ["in"] →
      ∀ (fs : FPath → Option Bytes) (p : FPath), ["in"] <+: p →
        applyTrace fs (run_with_args cw10 ["in"] ["out"] ["key"]).1 p
          = fs p) :=
  c10_frame cw10 ["in"] ["out"] ["key"] (by
    intro e he
    have he' : WalkItem.ok e = WalkItem.ok ⟨["in", "a.txt"], true⟩ :=
      List.mem_singleton.mp he
    injection he' with he''
    rw [he'']
    exact ⟨by decide, by decide⟩)

/-- World whose input root `home/in` lies strictly inside the output
root `home`, holding the file `home/in/in/x.txt`. -/
def nestWorld : World :=
  baseWorld [WalkItem.ok ⟨["home", "in", "in", "x.txt"], true⟩]

/-- Initial contents: the file `home/in/x.pgp` holds three bytes. -/
def nestFs : FPath → Option Bytes :=
  fun p => if p = ["home", "in", "x.pgp"] then some [1, 2, 3] else none

/-- C10 counterexample: with output root `home` and input root
`home/in`, the output root is not inside the input tree, the walk entry
lies under the input root, yet the run writes `home/in/x.pgp` — a path
under the input directory — so a file there does not keep its contents,
contrary to the claim. -/
theorem c10_counterexample :
    (∀ e : Entry, WalkItem.ok e ∈ nestWorld.walk →
      (["home", "in"] : FPath) <+: e.path ∧ e.path ≠ ["home", "in"]) ∧
    ¬ ((["home", "in"] : FPath) <+: (["home"] : FPath)) ∧
    ((["home", "in"] : FPath) <+: (["home", "in", "x.pgp"] : FPath)) ∧
    applyTrace nestFs
        (run_with_args nestWorld ["home", "in"] ["home"] ["key"]).1
        ["home", "in", "x.pgp"]
      ≠ nestFs ["home", "in", "x.pgp"] := by
  refine ⟨?_, by decide, by decide, by decide⟩
  intro e he
  have he' : WalkItem.ok e
      = WalkItem.ok ⟨["home", "in", "in", "x.txt"], true⟩ :=
    List.mem_singleton.mp he
  injection he' with he''
  rw [he'']
  exact ⟨by decide, by decide⟩

/-- Modelled from the spec: a contents map update (write-whole-file of
the filesystem contract, §6). -/
def fsWrite (fs : FPath → Option Bytes) (p : FPath) (b : Bytes) :
    FPath → Option Bytes :=
  fun q => if q = p then some b else fs q

/-- Modelled from the spec: removal of a file from the contents map
(the temp-file removal of §4.1(5)). -/
def fsRemove (fs : FPath → Option Bytes) (p : FPath) :
    FPath → Option Bytes :=
  fun q => if q = p then none else fs q

/-- Modelled from the spec: the temporary sibling file of the in-place
variant, named by the original name plus the encrypted-marker suffix
plus a temp marker (§6, output file naming). -/
def tempPathOf : FPath → FPath
  | [] => []
  | [n] => [n ++ ".pgp.tmp"]
  | c :: c2 :: rest => c :: tempPathOf (c2 :: rest)

/-- Modelled from the spec: the in-place program variant is not among
this repository's sources (src/ holds only the mirrored-tree variant);
per §4.1(5) it writes the ciphertext to a temporary sibling file, then
atomically renames it over the original, removing the temp file when
the rename fails.  `renameOk` is the outcome of the rename; the result
is the new contents map and whether the file was replaced. -/
def inPlaceEncryptFile (renameOk : Bool) (fs : FPath → Option Bytes)
    (p : FPath) (ct : Bytes) : (FPath → Option Bytes) × Bool :=
  let fs1 := fsWrite fs (tempPathOf p) ct
  if renameOk then
    (fsWrite (fsRemove fs1 (tempPathOf p)) p ct, true)
  else
    (fsRemove fs1 (tempPathOf p), false)

/-- The temporary sibling file never coincides with the original
file. -/
theorem tempPathOf_ne (p : FPath) (hp : p ≠ []) : tempPathOf p ≠ p := by
  induction p with
  | nil => exact absurd rfl hp
  | cons c rest ih =>
    cases rest with
    | nil =>
      intro h
      have h' : c ++ ".pgp.tmp" = c := by
        have := List.head_eq_of_cons_eq h
        exact this
      have hlen := congrArg String.length h'
      rw [String.length_append] at hlen
      have : (".pgp.tmp" : String).length = 8 := by decide
      omega
    | cons c2 rest2 =>
      intro h
      have h2 : tempPathOf (c2 :: rest2) = c2 :: rest2 :=
        List.tail_eq_of_cons_eq h
      exact ih (by simp) h2

/-- C3 (spec-modelled): the in-place variant first writes ciphertext to
the temporary sibling file and then renames it over the original; after
a successful rename the original path holds the ciphertext and no temp
file remains, and after a rename failure the temp file is removed and
the original path's contents are exactly as before. -/
theorem c3_in_place (fs : FPath → Option Bytes) (p : FPath) (ct : Bytes)
    (hp : p ≠ []) :
    ((inPlaceEncryptFile true fs p ct).2 = true ∧
     (inPlaceEncryptFile true fs p ct).1 p = some ct ∧
     (inPlaceEncryptFile true fs p ct).1 (tempPathOf p) = none) ∧
    ((inPlaceEncryptFile false fs p ct).2 = false ∧
     (inPlaceEncryptFile false fs p ct).1 (tempPathOf p) = none ∧
     (inPlaceEncryptFile false fs p ct).1 p = fs p) := by
  have hne := tempPathOf_ne p hp
  refine ⟨⟨rfl, ?_, ?_⟩, rfl, ?_, ?_⟩ <;>
    simp [inPlaceEncryptFile, fsWrite, fsRemove, hne, Ne.symm hne]

/-- Concrete initial contents for the C3 witness. -/
def nfs : FPath → Option Bytes :=
  fun p => if p = ["a.txt"] then some [1] else none

/-- Witness for C3 at a concrete file and ciphertext. -/
theorem c3_witness :
    ((inPlaceEncryptFile true nfs ["a.txt"] [9, 1]).2 = true ∧
     (inPlaceEncryptFile true nfs ["a.txt"] [9, 1]).1 ["a.txt"]
       = some [9, 1] ∧
     (inPlaceEncryptFile true nfs ["a.txt"] [9, 1]).1
       (tempPathOf ["a.txt"]) = none) ∧
    ((inPlaceEncryptFile false nfs ["a.txt"] [9, 1]).2 = false ∧
     (inPlaceEncryptFile false nfs ["a.txt"] [9, 1]).1
       (tempPathOf ["a.txt"]) = none ∧
     (inPlaceEncryptFile false nfs ["a.txt"] [9, 1]).1 ["a.txt"]
       = nfs ["a.txt"]) :=
  c3_in_place nfs ["a.txt"] [9, 1] (by decide)
